import Mathlib

/-!
Verification of the `mob` process-output line decoder (`encoded_buffer` in
`src/process.h`) and of `process::pipe`, against the repository's
natural-language specification.

The decoder is embedded shallowly: the accumulated raw bytes are a
`List Nat` (byte values), pointers of `next_line` become byte offsets, and
the two `while` loops of `next_line` become `skipSeps` (the inner
separator-skipping loop, which always terminates) and `scanLoop` (the outer
scan, written with explicit fuel because for UTF-16 the source's
`p != end` condition can fail to ever hold, making the loop diverge;
`none` marks that divergence).  Out-of-range byte reads - which the C++
performs in exactly the situations analysed below - are modelled as
reading 0 (`List.getD`).
-/

namespace Mob

/-- The `encodings` enumeration used by `encoded_buffer` (from `env.h`
usage in `src/process.h`). -/
inductive encodings where
  | dont_know
  | acp
  | oem
  | utf16
  | utf8
deriving DecidableEq, Repr

/-- `sizeof(CharT)` of the code unit `next_line` is instantiated at:
2 for UTF-16 (`wchar_t`), 1 for every other encoding (`char`),
mirroring the `switch` in `next_utf8_lines`. -/
def charWidth : encodings → Nat
  | .utf16 => 2
  | _ => 1

/-- Reading `*p` where `p` is a `CharT*` into the byte buffer at byte
offset `i`: one byte for `char`, a little-endian pair for `wchar_t`.
Bytes past the end of the buffer read as 0 (in the C++ such a read is
out of bounds). -/
def readUnit (w : Nat) (bytes : List Nat) (i : Nat) : Nat :=
  if w = 2 then bytes.getD i 0 + 256 * bytes.getD (i + 1) 0
  else bytes.getD i 0

/-- `*p == CharT('\n') || *p == CharT('\r')`. -/
def isSep (u : Nat) : Bool := u == 10 || u == 13

/-- The adjusted scan end of `next_line`: `size = bytes.size()`, and for a
2-byte `CharT` an odd trailing byte is excluded (`if ((size & 1) == 1) --size;`). -/
def scanEnd (e : encodings) (bytes : List Nat) : Nat :=
  if charWidth e = 2 ∧ bytes.length % 2 = 1 then bytes.length - 1 else bytes.length

/-- Structural core of `skipSeps`; the counter only bounds the recursion
and is always started high enough (`bytes.length + 1 - p`) that it never
runs out while the loop condition can still hold (once `p` is past the
buffer every unit reads 0, which is not a separator). -/
def skipSepsAux (e : encodings) (bytes : List Nat) (endPos : Nat) :
    Nat → Nat → Nat
  | 0, p => p
  | n + 1, p =>
    if p ≠ endPos ∧ isSep (readUnit (charWidth e) bytes p) then
      skipSepsAux e bytes endPos n (p + charWidth e)
    else p

/-- The inner loop of `next_line`:
`while (p != end && (*p == CharT('\n') || *p == CharT('\r'))) ++p;`. -/
def skipSeps (e : encodings) (bytes : List Nat) (endPos p : Nat) : Nat :=
  skipSepsAux e bytes endPos (bytes.length + 1 - p) p

/-- The outer loop of `next_line` (`while (p != end) { ... }`), carrying
`start` and `p` as byte offsets.  Result:
`none` - the loop never terminates within `fuel` iterations (for the
inputs where we use this, it never terminates at all);
`some none` - the loop fell through with `line` still empty;
`some (some (s, p, p2))` - `break` with the nonempty `line = {s, p - s}`
and the pointer advanced to `p2` past the separator run. -/
def scanLoop (e : encodings) (bytes : List Nat) (endPos : Nat) :
    Nat → Nat → Nat → Option (Option (Nat × Nat × Nat))
  | 0, _, _ => none
  | fuel + 1, start, p =>
    if p = endPos then some none
    else if isSep (readUnit (charWidth e) bytes p) then
      if p = start then
        scanLoop e bytes endPos fuel (skipSeps e bytes endPos p) (skipSeps e bytes endPos p)
      else some (some (start, p, skipSeps e bytes endPos p))
    else scanLoop e bytes endPos fuel start (p + charWidth e)

/-- A `std::basic_string_view<CharT>` into the byte buffer: `start` is a
byte offset, `len` counts `CharT` code units (exactly the two values the
C++ stores).  The bytes designated by the view are
`bytes[start .. start + len * sizeof(CharT))`. -/
structure LineView where
  start : Nat
  len : Nat
deriving DecidableEq, Repr

/-- The bytes a view designates in the buffer it points into. -/
def viewBytes (e : encodings) (bytes : List Nat) (v : LineView) : List Nat :=
  (bytes.drop v.start).take (v.len * charWidth e)

/-- One past the last byte offset the view covers. -/
def viewByteEnd (e : encodings) (v : LineView) : Nat :=
  v.start + v.len * charWidth e

/-- `encoded_buffer::next_line` (src/process.h:102-161).  Returns the view
and the updated `byte_offset`, or `none` when the scan loop diverges.
Note two literal transcriptions from the source:
the empty-`line` `finished` branch builds `{bytes.data() + byte_offset,
size - byte_offset}` - a view whose LENGTH FIELD is the byte count
`size - byte_offset` even for a 2-byte `CharT` - and then sets
`byte_offset = bytes.size()`; the nonempty branch sets
`byte_offset = (char*)p - bytes.data()`. -/
def next_line (e : encodings) (finished : Bool) (bytes : List Nat)
    (byte_offset : Nat) (fuel : Nat) : Option (LineView × Nat) :=
  match scanLoop e bytes (scanEnd e bytes) fuel byte_offset byte_offset with
  | none => none
  | some none =>
    if finished then
      some (⟨byte_offset, scanEnd e bytes - byte_offset⟩, bytes.length)
    else
      some (⟨byte_offset, 0⟩, byte_offset)
  | some (some (s, p, p2)) => some (⟨s, (p - s) / charWidth e⟩, p2)

/-- The `encoded_buffer` state: encoding tag, accumulated bytes `bytes_`,
and consumed-byte offset `last_`. -/
structure encoded_buffer where
  e : encodings
  bytes : List Nat
  last : Nat
deriving DecidableEq, Repr

/-- `encoded_buffer::add`: append raw bytes. -/
def encoded_buffer.add (b : encoded_buffer) (chunk : List Nat) : encoded_buffer :=
  { b with bytes := b.bytes ++ chunk }

/-- `encoded_buffer::next_utf8_lines` (src/process.h:48-95), the spec's
`produce_lines`: repeatedly take `next_line`; if the view is empty,
return; otherwise hand the line to the callback and continue.  The model
collects the views handed to the callback, in order (the per-encoding
conversions `utf16_to_utf8` / `bytes_to_utf8` / `std::string` are pure
maps applied to each view; for UTF-8 and `dont_know` the emitted string
is exactly `viewBytes` of the view).  `none` again marks divergence. -/
def next_utf8_lines (finished : Bool) :
    Nat → encoded_buffer → Option (List LineView × encoded_buffer)
  | 0, _ => none
  | fuel + 1, b =>
    match next_line b.e finished b.bytes b.last fuel with
    | none => none
    | some (line, off2) =>
      if line.len = 0 then some ([], { b with last := off2 })
      else
        match next_utf8_lines finished fuel { b with last := off2 } with
        | none => none
        | some (lines, b2) => some (line :: lines, b2)

/-- A fresh stream for an encoding (constructor defaults: empty bytes,
offset 0). -/
def encoded_buffer.mk0 (e : encodings) : encoded_buffer := ⟨e, [], 0⟩

/-- The `MOB_ASSERT(byte_offset <= bytes.size())` condition checked at
src/process.h:157 after a nonempty line advances the offset. -/
def mob_assert_cond (bytes : List Nat) (byte_offset : Nat) : Prop :=
  byte_offset ≤ bytes.length

/-- A process descriptor, abstracted to the chain of descriptors it
represents for the purpose of `process::pipe`.  A single configured
descriptor is a one-element chain. -/
structure process where
  chain : List Nat
deriving DecidableEq, Repr

/-- Modelled from the spec: `pipe_into` is declared at src/process.h:362
but its definition (process.cpp) is not part of the sources given; the
spec says each descriptor's captured stdout becomes the next descriptor's
stdin, so piping `r` into `p` concatenates their chains. -/
def process.pipe_into (r p : process) : process := ⟨r.chain ++ p.chain⟩

/-- `static process pipe(process p) { return p; }` (src/process.h:225-228). -/
def process.pipe1 (p : process) : process := p

/-- The variadic `process::pipe` (src/process.h:230-237):
`auto r = p1; r.pipe_into(p2); pipe(r, ps...); return r;`.
The recursive call's result is bound and then discarded, exactly as the
source discards the value returned by `pipe(r, ps...)`. -/
def process.pipe : process → process → List process → process
  | p1, p2, [] =>
    let r := p1.pipe_into p2
    let _discarded := process.pipe1 r
    r
  | p1, p2, q :: qs =>
    let r := p1.pipe_into p2
    let _discarded := process.pipe r q qs
    r

/-- Follows the spec's words (section 4.4): `pipe(p1, p2, ...)` composes a
left-to-right chain over ALL the given descriptors. -/
def pipe_spec (ps : List process) : process :=
  ⟨(ps.map process.chain).flatten⟩

/-! ## General lemmas about the scan -/

theorem charWidth_pos (e : encodings) : 0 < charWidth e := by
  cases e <;> simp [charWidth]

theorem readUnit_eq_zero (w : Nat) (bytes : List Nat) (p : Nat)
    (h : bytes.length ≤ p) : readUnit w bytes p = 0 := by
  unfold readUnit
  rw [List.getD_eq_default _ _ h,
    List.getD_eq_default _ _ (le_trans h (Nat.le_succ p))]
  split <;> rfl

theorem isSep_lt_length (w : Nat) (bytes : List Nat) (p : Nat)
    (h : isSep (readUnit w bytes p) = true) : p < bytes.length := by
  by_contra hc
  push_neg at hc
  rw [readUnit_eq_zero w bytes p hc] at h
  simp [isSep] at h

theorem skipSepsAux_ge (e : encodings) (bytes : List Nat) (endPos : Nat) :
    ∀ n p, p ≤ skipSepsAux e bytes endPos n p := by
  intro n
  induction n with
  | zero => intro p; simp [skipSepsAux]
  | succ n ih =>
    intro p
    rw [skipSepsAux]
    split
    · exact le_trans (Nat.le_add_right p (charWidth e)) (ih (p + charWidth e))
    · exact le_refl p

theorem skipSeps_ge (e : encodings) (bytes : List Nat) (endPos p : Nat) :
    p ≤ skipSeps e bytes endPos p :=
  skipSepsAux_ge e bytes endPos _ p

theorem scanLoop_none_le (e : encodings) (bytes : List Nat) (endPos : Nat) :
    ∀ fuel start p, scanLoop e bytes endPos fuel start p = some none →
      p ≤ endPos := by
  intro fuel
  induction fuel with
  | zero => intro start p h; simp [scanLoop] at h
  | succ fuel ih =>
    intro start p h
    rw [scanLoop] at h
    by_cases h1 : p = endPos
    · exact le_of_eq h1
    · rw [if_neg h1] at h
      by_cases h2 : isSep (readUnit (charWidth e) bytes p) = true
      · rw [if_pos h2] at h
        by_cases h3 : p = start
        · rw [if_pos h3] at h
          exact le_trans (skipSeps_ge e bytes endPos p) (ih _ _ h)
        · rw [if_neg h3] at h
          simp at h
      · rw [if_neg h2] at h
        exact le_trans (Nat.le_add_right p (charWidth e)) (ih _ _ h)

theorem scanLoop_break_le (e : encodings) (bytes : List Nat) (endPos : Nat) :
    ∀ fuel start p s q p2,
      scanLoop e bytes endPos fuel start p = some (some (s, q, p2)) →
      p ≤ p2 := by
  intro fuel
  induction fuel with
  | zero => intro start p s q p2 h; simp [scanLoop] at h
  | succ fuel ih =>
    intro start p s q p2 h
    rw [scanLoop] at h
    by_cases h1 : p = endPos
    · rw [if_pos h1] at h; simp at h
    · rw [if_neg h1] at h
      by_cases h2 : isSep (readUnit (charWidth e) bytes p) = true
      · rw [if_pos h2] at h
        by_cases h3 : p = start
        · rw [if_pos h3] at h
          exact le_trans (skipSeps_ge e bytes endPos p) (ih _ _ _ _ _ h)
        · rw [if_neg h3] at h
          simp at h
          obtain ⟨-, -, h6⟩ := h
          rw [← h6]
          exact skipSeps_ge e bytes endPos p
      · rw [if_neg h2] at h
        exact le_trans (Nat.le_add_right p (charWidth e)) (ih _ _ _ _ _ h)

theorem scanEnd_le (e : encodings) (bytes : List Nat) :
    scanEnd e bytes ≤ bytes.length := by
  unfold scanEnd
  split
  · exact Nat.sub_le _ _
  · exact le_refl _

theorem next_line_mono (e : encodings) (finished : Bool) (bytes : List Nat)
    (off fuel : Nat) (v : LineView) (off2 : Nat)
    (h : next_line e finished bytes off fuel = some (v, off2)) : off ≤ off2 := by
  unfold next_line at h
  cases hs : scanLoop e bytes (scanEnd e bytes) fuel off off with
  | none => rw [hs] at h; simp at h
  | some r =>
    rw [hs] at h
    cases r with
    | none =>
      cases finished with
      | false =>
        simp at h
        omega
      | true =>
        simp at h
        have h1 := scanLoop_none_le e bytes (scanEnd e bytes) fuel off off hs
        have h2 := scanEnd_le e bytes
        omega
    | some t =>
      obtain ⟨s, q, p2⟩ := t
      simp at h
      have := scanLoop_break_le e bytes (scanEnd e bytes) fuel off off s q p2 hs
      omega

theorem next_utf8_lines_mono (finished : Bool) :
    ∀ fuel (b : encoded_buffer) lines b2,
      next_utf8_lines finished fuel b = some (lines, b2) →
      b.last ≤ b2.last := by
  intro fuel
  induction fuel with
  | zero => intro b lines b2 h; simp [next_utf8_lines] at h
  | succ fuel ih =>
    intro b lines b2 h
    rw [next_utf8_lines] at h
    cases hnl : next_line b.e finished b.bytes b.last fuel with
    | none => rw [hnl] at h; simp at h
    | some r =>
      obtain ⟨line, off2⟩ := r
      rw [hnl] at h
      dsimp only at h
      have hm := next_line_mono b.e finished b.bytes b.last fuel line off2 hnl
      by_cases hl : line.len = 0
      · rw [if_pos hl] at h
        simp at h
        obtain ⟨-, hb⟩ := h
        rw [← hb]
        exact hm
      · rw [if_neg hl] at h
        cases hrec : next_utf8_lines finished fuel { b with last := off2 } with
        | none => rw [hrec] at h; simp at h
        | some r2 =>
          obtain ⟨ls, b3⟩ := r2
          rw [hrec] at h
          simp at h
          obtain ⟨-, hb⟩ := h
          have := ih { b with last := off2 } ls b3 hrec
          rw [← hb]
          simp at this
          omega

/-! ## Divergence of the scan when the offset has overrun the scan end
(the UTF-16 odd-length situation) -/

theorem scanLoop_none_of_overrun (e : encodings) (bytes : List Nat) (endPos : Nat) :
    ∀ fuel start p, endPos < p → bytes.length ≤ p →
      scanLoop e bytes endPos fuel start p = none := by
  intro fuel
  induction fuel with
  | zero => intro start p _ _; simp [scanLoop]
  | succ fuel ih =>
    intro start p h1 h2
    rw [scanLoop]
    rw [if_neg (ne_of_gt h1)]
    rw [readUnit_eq_zero (charWidth e) bytes p h2]
    rw [if_neg (by simp [isSep])]
    exact ih start (p + charWidth e)
      (lt_of_lt_of_le h1 (Nat.le_add_right p (charWidth e)))
      (le_trans h2 (Nat.le_add_right p (charWidth e)))

theorem next_line_none_of_overrun (e : encodings) (finished : Bool)
    (bytes : List Nat) (off fuel : Nat)
    (h1 : scanEnd e bytes < off) (h2 : bytes.length ≤ off) :
    next_line e finished bytes off fuel = none := by
  unfold next_line
  rw [scanLoop_none_of_overrun e bytes (scanEnd e bytes) fuel off off h1 h2]

theorem next_utf8_lines_none_of_overrun (finished : Bool) (fuel : Nat)
    (b : encoded_buffer)
    (h1 : scanEnd b.e b.bytes < b.last) (h2 : b.bytes.length ≤ b.last) :
    next_utf8_lines finished fuel b = none := by
  cases fuel with
  | zero => simp [next_utf8_lines]
  | succ fuel =>
    rw [next_utf8_lines]
    rw [next_line_none_of_overrun b.e finished b.bytes b.last fuel h1 h2]

/-! ## The scan over a buffer consisting solely of separators -/

theorem skipSepsAux_all_sep (e : encodings) (bytes : List Nat)
    (h1 : charWidth e = 1) (h3 : ∀ u ∈ bytes, u = 10 ∨ u = 13) :
    ∀ n p, bytes.length ≤ p + n → p ≤ bytes.length →
      skipSepsAux e bytes bytes.length n p = bytes.length := by
  intro n
  induction n with
  | zero =>
    intro p hn hp
    have hpe : p = bytes.length := by omega
    simp [skipSepsAux, hpe]
  | succ n ih =>
    intro p hn hp
    rw [skipSepsAux]
    by_cases hp2 : p = bytes.length
    · rw [if_neg (fun hc => hc.1 hp2)]
      exact hp2
    · have hlt : p < bytes.length := lt_of_le_of_ne hp hp2
      have hsep : isSep (readUnit (charWidth e) bytes p) = true := by
        rw [h1]
        unfold readUnit
        rw [if_neg (by decide)]
        rw [List.getD_eq_getElem bytes 0 hlt]
        rcases h3 bytes[p] (List.getElem_mem hlt) with h | h <;> simp [isSep, h]
      rw [if_pos ⟨hp2, hsep⟩, h1]
      exact ih (p + 1) (by omega) (by omega)

theorem skipSeps_all_sep (e : encodings) (bytes : List Nat)
    (h1 : charWidth e = 1) (h3 : ∀ u ∈ bytes, u = 10 ∨ u = 13)
    (p : Nat) (hp : p ≤ bytes.length) :
    skipSeps e bytes bytes.length p = bytes.length := by
  unfold skipSeps
  exact skipSepsAux_all_sep e bytes h1 h3 _ p (by omega) hp

theorem scanEnd_of_one_byte (e : encodings) (bytes : List Nat)
    (h1 : charWidth e = 1) : scanEnd e bytes = bytes.length := by
  unfold scanEnd
  rw [if_neg]
  intro hc
  rw [h1] at hc
  exact absurd hc.1 (by decide)

theorem scanLoop_all_sep (e : encodings) (bytes : List Nat)
    (h1 : charWidth e = 1) (h2 : bytes ≠ [])
    (h3 : ∀ u ∈ bytes, u = 10 ∨ u = 13) :
    ∀ fuel, scanLoop e bytes bytes.length (fuel + 2) 0 0 = some none := by
  intro fuel
  have hpos : 0 < bytes.length := List.length_pos.mpr h2
  have hsep : isSep (readUnit (charWidth e) bytes 0) = true := by
    rw [h1]
    unfold readUnit
    rw [if_neg (by decide)]
    rw [List.getD_eq_getElem bytes 0 hpos]
    rcases h3 bytes[0] (List.getElem_mem hpos) with h | h <;> simp [isSep, h]
  rw [scanLoop]
  rw [if_neg (by omega)]
  rw [if_pos hsep]
  rw [if_pos rfl]
  rw [skipSeps_all_sep e bytes h1 h3 0 (by omega)]
  rw [scanLoop]
  rw [if_pos rfl]

/-! ## `add` only appends bytes -/

theorem foldl_add_eq (chunks : List (List Nat)) :
    ∀ b : encoded_buffer,
      chunks.foldl encoded_buffer.add b =
        ⟨b.e, b.bytes ++ chunks.flatten, b.last⟩ := by
  induction chunks with
  | nil => intro b; cases b; simp
  | cons c cs ih =>
    intro b
    rw [List.foldl_cons, ih]
    simp [encoded_buffer.add]

/-! ## Helper runs used to state concrete decodings: the emitted views
mapped to the bytes they designate (for UTF-8 this is exactly the emitted
string) -/

def decode_lines (finished : Bool) (fuel : Nat) (b : encoded_buffer) :
    Option (List (List Nat) × encoded_buffer) :=
  (next_utf8_lines finished fuel b).map
    (fun r => (r.1.map (viewBytes b.e b.bytes), r.2))

def decode_one_shot (bytes : List Nat) : Option (List (List Nat)) :=
  match decode_lines true 40 ⟨.utf8, bytes, 0⟩ with
  | none => none
  | some (l, _) => some l

def decode_two_stage (bytes : List Nat) : Option (List (List Nat)) :=
  match decode_lines false 40 ⟨.utf8, bytes, 0⟩ with
  | none => none
  | some (l1, b1) =>
    match decode_lines true 40 b1 with
    | none => none
    | some (l2, _) => some (l1 ++ l2)

/-! ## The claims -/

/-- Claim C1, counterexample: chunking invariance fails.  Feeding
`"a\r"` then (after a `produce_lines(false, ...)` call) `"\nb"` emits the
lines `"a"` and `"\nb"`, while feeding `"a\r\nb"` at once and finishing
emits `"a"` and `"b"`: the `finished` flush starts at `byte_offset`,
which still points at the `"\n"` whose preceding `"\r"` was consumed by
the earlier call. -/
theorem C1_counterexample_chunking :
    decode_lines false 30 ⟨.utf8, [97, 13], 0⟩ =
      some ([[97]], ⟨.utf8, [97, 13], 2⟩) ∧
    (⟨.utf8, [97, 13], 2⟩ : encoded_buffer).add [10, 98] =
      ⟨.utf8, [97, 13, 10, 98], 2⟩ ∧
    decode_lines true 30 ⟨.utf8, [97, 13, 10, 98], 2⟩ =
      some ([[10, 98]], ⟨.utf8, [97, 13, 10, 98], 4⟩) ∧
    decode_lines true 30 ⟨.utf8, [97, 13, 10, 98], 0⟩ =
      some ([[97], [98]], ⟨.utf8, [97, 13, 10, 98], 4⟩) ∧
    ([[97]] ++ [[10, 98]] : List (List Nat)) ≠ [[97], [98]] := by
  decide

/-- Claim C1, amended: chunking invariance does hold when the chunks are
fed by consecutive `add` calls with no intermediate `produce_lines`
call: for every encoding, every chunking and every final call, the
decoder state after the adds is the state after one add of the whole
sequence, so the emitted lines coincide. -/
theorem C1_amended_chunking_invariance (e : encodings)
    (chunks : List (List Nat)) (finished : Bool) (fuel : Nat) :
    next_utf8_lines finished fuel
        (chunks.foldl encoded_buffer.add (encoded_buffer.mk0 e)) =
      next_utf8_lines finished fuel
        ((encoded_buffer.mk0 e).add chunks.flatten) := by
  rw [foldl_add_eq chunks (encoded_buffer.mk0 e)]
  rfl

/-- Claim C2, counterexample: a stream consisting solely of separators
does NOT emit nothing: on the single byte `"\n"`, `produce_lines(false)`
emits nothing, but the final `produce_lines(true)` flushes the tail
`bytes[byte_offset..size)` - the separator itself - and invokes the
callback once with it. -/
theorem C2_counterexample_separator_flush :
    next_utf8_lines false 10 ⟨.utf8, [10], 0⟩ = some ([], ⟨.utf8, [10], 0⟩) ∧
    decode_lines true 10 ⟨.utf8, [10], 0⟩ = some ([[10]], ⟨.utf8, [10], 1⟩) ∧
    ([[10]] : List (List Nat)) ≠ [] := by
  decide

/-- Claim C2, amended: for an accumulated buffer consisting solely of
separator bytes under a one-byte encoding, `produce_lines(false, emit)`
never invokes the callback; the final `produce_lines(true, emit)` invokes
it exactly once, with the whole buffered separator run as the flushed
line (when the buffer is nonempty). -/
theorem C2_amended_all_separators (e : encodings) (bytes : List Nat)
    (h1 : charWidth e = 1) (h2 : bytes ≠ [])
    (h3 : ∀ u ∈ bytes, u = 10 ∨ u = 13) :
    (∀ fuel, next_utf8_lines false (fuel + 3) ⟨e, bytes, 0⟩ =
      some ([], ⟨e, bytes, 0⟩)) ∧
    (∀ fuel, next_utf8_lines true (fuel + 4) ⟨e, bytes, 0⟩ =
      some ([⟨0, bytes.length⟩], ⟨e, bytes, bytes.length⟩)) := by
  have hscan : ∀ fuel,
      scanLoop e bytes (scanEnd e bytes) (fuel + 2) 0 0 = some none := by
    intro fuel
    rw [scanEnd_of_one_byte e bytes h1]
    exact scanLoop_all_sep e bytes h1 h2 h3 fuel
  have hscan_end : ∀ fuel,
      scanLoop e bytes (scanEnd e bytes) (fuel + 1) bytes.length bytes.length =
        some none := by
    intro fuel
    rw [scanEnd_of_one_byte e bytes h1]
    rw [scanLoop]
    rw [if_pos rfl]
  have hpos : 0 < bytes.length := List.length_pos.mpr h2
  constructor
  · intro fuel
    rw [next_utf8_lines]
    have hnl : next_line e false bytes 0 (fuel + 2) = some (⟨0, 0⟩, 0) := by
      unfold next_line
      rw [hscan fuel]
      rfl
    rw [hnl]
    rfl
  · intro fuel
    rw [next_utf8_lines]
    have hnl : next_line e true bytes 0 (fuel + 3) =
        some (⟨0, bytes.length⟩, bytes.length) := by
      unfold next_line
      rw [hscan (fuel + 1)]
      rw [if_pos rfl]
      rw [scanEnd_of_one_byte e bytes h1]
      rw [Nat.sub_zero]
    rw [hnl]
    dsimp only
    rw [if_neg (by omega)]
    have hnl2 : next_line e true bytes bytes.length (fuel + 2) =
        some (⟨bytes.length, 0⟩, bytes.length) := by
      unfold next_line
      rw [hscan_end (fuel + 1)]
      rw [if_pos rfl]
      rw [scanEnd_of_one_byte e bytes h1]
      rw [Nat.sub_self]
    rw [next_utf8_lines]
    rw [hnl2]
    rfl

/-- Claim C3, code bug: the `finished` flush of `next_line` builds the
view `{bytes.data() + byte_offset, size - byte_offset}`; for the 2-byte
`wchar_t` instantiation the length field is a BYTE count used as a code
unit count.  On the odd 5-byte UTF-16 buffer `"a\0b\0c"` the flush
returns a view of 4 code units covering 8 bytes of a 5-byte buffer: the
decoder reads past the accumulated length, contrary to the claim. -/
theorem C3_utf16_flush_overrun :
    next_line .utf16 true [97, 0, 98, 0, 99] 0 20 = some (⟨0, 4⟩, 5) ∧
    viewByteEnd .utf16 ⟨0, 4⟩ = 8 ∧
    ([97, 0, 98, 0, 99] : List Nat).length = 5 ∧
    ¬ viewByteEnd .utf16 ⟨0, 4⟩ ≤ ([97, 0, 98, 0, 99] : List Nat).length := by
  decide

/-- Claim C4, code bug: the variadic `process::pipe` discards the result
of its recursive call (`pipe(r, ps...);` as a statement), so only the
first two descriptors are chained: `pipe(p1, p2, p3)` returns `p1 | p2`
and `p3` is dropped, while the spec requires the full left-to-right
chain (`pipe_spec`). -/
theorem C4_pipe_drops_tail :
    process.pipe ⟨[1]⟩ ⟨[2]⟩ [⟨[3]⟩] = ⟨[1, 2]⟩ ∧
    pipe_spec [⟨[1]⟩, ⟨[2]⟩, ⟨[3]⟩] = ⟨[1, 2, 3]⟩ ∧
    process.pipe ⟨[1]⟩ ⟨[2]⟩ [⟨[3]⟩] ≠ pipe_spec [⟨[1]⟩, ⟨[2]⟩, ⟨[3]⟩] := by
  decide

/-- Claim C5, confirmed: after `add("partial")` with no separator,
`produce_lines(false)` emits nothing; `produce_lines(true)` emits exactly
the single line `"partial"`; and every subsequent `produce_lines` call
(either flag, any fuel) emits nothing and leaves the state unchanged. -/
theorem C5_trailing_partial_line :
    next_utf8_lines false 20 ⟨.utf8, [112, 97, 114, 116, 105, 97, 108], 0⟩ =
      some ([], ⟨.utf8, [112, 97, 114, 116, 105, 97, 108], 0⟩) ∧
    decode_lines true 20 ⟨.utf8, [112, 97, 114, 116, 105, 97, 108], 0⟩ =
      some ([[112, 97, 114, 116, 105, 97, 108]],
        ⟨.utf8, [112, 97, 114, 116, 105, 97, 108], 7⟩) ∧
    (∀ (fin : Bool) (fuel : Nat),
      next_utf8_lines fin (fuel + 2) ⟨.utf8, [112, 97, 114, 116, 105, 97, 108], 7⟩ =
        some ([], ⟨.utf8, [112, 97, 114, 116, 105, 97, 108], 7⟩)) := by
  refine ⟨by decide, by decide, ?_⟩
  intro fin fuel
  have hscan : scanLoop .utf8 [112, 97, 114, 116, 105, 97, 108]
      (scanEnd .utf8 [112, 97, 114, 116, 105, 97, 108]) (fuel + 1) 7 7 =
      some none := by
    rw [scanLoop]
    rw [if_pos (by decide)]
  have hnl : next_line .utf8 fin [112, 97, 114, 116, 105, 97, 108] 7 (fuel + 1) =
      some (⟨7, 0⟩, 7) := by
    unfold next_line
    rw [hscan]
    cases fin <;> decide
  rw [next_utf8_lines]
  rw [hnl]
  rfl

/-- Claim C6, code bug: on UTF-16 input of odd length the finished flush
sets `byte_offset = bytes.size()` (odd) while the scan end stays even, so
a subsequent `produce_lines` call scans from past the end with a
`p != end` condition that never becomes false: instead of being a no-op
it reads past the buffer and never terminates (no fuel suffices). -/
theorem C6_utf16_post_flush_divergence :
    decode_lines true 20 ⟨.utf16, [65, 0, 10, 0, 66], 0⟩ =
      some ([[65, 0]], ⟨.utf16, [65, 0, 10, 0, 66], 5⟩) ∧
    (∀ (fin : Bool) (fuel : Nat),
      next_utf8_lines fin fuel ⟨.utf16, [65, 0, 10, 0, 66], 5⟩ = none) := by
  refine ⟨by decide, ?_⟩
  intro fin fuel
  exact next_utf8_lines_none_of_overrun fin fuel _ (by decide) (by decide)

/-- Claim C7, confirmed: the four inputs `"a\r\nb"`, `"a\n\rb"`,
`"a\rb"`, `"a\nb"` each decode to exactly the two lines `"a"`, `"b"`,
both with a single `produce_lines(true)` call and with a
`produce_lines(false)` call followed by `produce_lines(true)`. -/
theorem C7_separator_collapsing :
    decode_one_shot [97, 13, 10, 98] = some [[97], [98]] ∧
    decode_one_shot [97, 10, 13, 98] = some [[97], [98]] ∧
    decode_one_shot [97, 13, 98] = some [[97], [98]] ∧
    decode_one_shot [97, 10, 98] = some [[97], [98]] ∧
    decode_two_stage [97, 13, 10, 98] = some [[97], [98]] ∧
    decode_two_stage [97, 10, 13, 98] = some [[97], [98]] ∧
    decode_two_stage [97, 13, 98] = some [[97], [98]] ∧
    decode_two_stage [97, 10, 98] = some [[97], [98]] := by
  decide

/-- Claim C8, code bug: the offset CAN exceed the accumulated length.
Reachable UTF-16 trace: flushing the odd 1-byte buffer `"A"` leaves
`byte_offset = 1`; after `add` of three more bytes the scan from the odd
offset reads misaligned code units (the unit at byte 3 straddles the
buffer end), finds a separator, and `next_line` sets `byte_offset = 5`
on a 4-byte buffer - the condition of
`MOB_ASSERT(byte_offset <= bytes.size())` (src/process.h:157) is
violated. -/
theorem C8_offset_exceeds_length :
    next_utf8_lines true 10 ⟨.utf16, [65], 0⟩ = some ([], ⟨.utf16, [65], 1⟩) ∧
    (⟨.utf16, [65], 1⟩ : encoded_buffer).add [66, 0, 10] =
      ⟨.utf16, [65, 66, 0, 10], 1⟩ ∧
    next_line .utf16 false [65, 66, 0, 10] 1 10 = some (⟨1, 1⟩, 5) ∧
    ¬ mob_assert_cond [65, 66, 0, 10] 5 := by
  refine ⟨by decide, by decide, by decide, ?_⟩
  intro hc
  simp only [mob_assert_cond] at hc
  simp at hc

/-- Claim C9, confirmed: the callback of `next_utf8_lines` is never
invoked with an empty line - every view in the collected output has a
positive length, for every encoding, `finished` flag and state (when
the view is empty the loop returns without invoking the callback). -/
theorem C9_emitted_lines_nonempty (finished : Bool) :
    ∀ (fuel : Nat) (b : encoded_buffer) (lines : List LineView)
      (b2 : encoded_buffer),
      next_utf8_lines finished fuel b = some (lines, b2) →
      ∀ v ∈ lines, 0 < v.len := by
  intro fuel
  induction fuel with
  | zero => intro b lines b2 h; simp [next_utf8_lines] at h
  | succ fuel ih =>
    intro b lines b2 h
    rw [next_utf8_lines] at h
    cases hnl : next_line b.e finished b.bytes b.last fuel with
    | none => rw [hnl] at h; simp at h
    | some r =>
      obtain ⟨line, off2⟩ := r
      rw [hnl] at h
      dsimp only at h
      by_cases hl : line.len = 0
      · rw [if_pos hl] at h
        simp at h
        obtain ⟨h1, -⟩ := h
        subst h1
        intro v hv
        simp at hv
      · rw [if_neg hl] at h
        cases hrec : next_utf8_lines finished fuel { b with last := off2 } with
        | none => rw [hrec] at h; simp at h
        | some r2 =>
          obtain ⟨ls, b3⟩ := r2
          rw [hrec] at h
          simp at h
          obtain ⟨h1, -⟩ := h
          subst h1
          intro v hv
          rcases List.mem_cons.mp hv with rfl | hv2
          · omega
          · exact ih _ _ _ hrec v hv2

/-- Witness for C9 at a concrete run: decoding `"a\n"` emits the single
view for `"a"`, and the theorem yields that every emitted view is
nonempty. -/
theorem C9_emitted_lines_nonempty_witness :
    next_utf8_lines true 20 ⟨.utf8, [97, 10], 0⟩ =
      some ([⟨0, 1⟩], ⟨.utf8, [97, 10], 2⟩) ∧
    ∀ v ∈ ([⟨0, 1⟩] : List LineView), 0 < v.len := by
  refine ⟨by decide, ?_⟩
  exact C9_emitted_lines_nonempty true 20 ⟨.utf8, [97, 10], 0⟩ [⟨0, 1⟩]
    ⟨.utf8, [97, 10], 2⟩ (by decide)

/-- Claim C10, confirmed: the consumed-byte offset is monotonically
non-decreasing - `add` leaves it unchanged and every completed
`next_utf8_lines` call can only advance it, for every state, encoding
and flag. -/
theorem C10_offset_monotone :
    (∀ (b : encoded_buffer) (chunk : List Nat), (b.add chunk).last = b.last) ∧
    (∀ (finished : Bool) (fuel : Nat) (b : encoded_buffer)
        (lines : List LineView) (b2 : encoded_buffer),
      next_utf8_lines finished fuel b = some (lines, b2) →
      b.last ≤ b2.last) := by
  constructor
  · intro b chunk
    rfl
  · intro finished fuel b lines b2 h
    exact next_utf8_lines_mono finished fuel b lines b2 h

/-- Witness for C10 at a concrete run: decoding `"a\n"` advances the
offset from 0 to 2, and the theorem yields the non-decrease. -/
theorem C10_offset_monotone_witness :
    next_utf8_lines true 20 ⟨.utf8, [97, 10], 0⟩ =
      some ([⟨0, 1⟩], ⟨.utf8, [97, 10], 2⟩) ∧
    (⟨.utf8, [97, 10], 0⟩ : encoded_buffer).last ≤
      (⟨.utf8, [97, 10], 2⟩ : encoded_buffer).last := by
  refine ⟨by decide, ?_⟩
  exact C10_offset_monotone.2 true 20 ⟨.utf8, [97, 10], 0⟩ [⟨0, 1⟩]
    ⟨.utf8, [97, 10], 2⟩ (by decide)

/-- Witness for C2 (amended) at the concrete separator run `"\n\r"`
under UTF-8. -/
theorem C2_amended_all_separators_witness :
    (∀ fuel, next_utf8_lines false (fuel + 3) ⟨.utf8, [10, 13], 0⟩ =
      some ([], ⟨.utf8, [10, 13], 0⟩)) ∧
    (∀ fuel, next_utf8_lines true (fuel + 4) ⟨.utf8, [10, 13], 0⟩ =
      some ([⟨0, 2⟩], ⟨.utf8, [10, 13], 2⟩)) := by
  exact C2_amended_all_separators .utf8 [10, 13] (by decide) (by decide)
    (by decide)

end Mob
